import Mathlib

/-!
Verification development for a Kaleidoscope-style front end: a character-level
tokenizer (src/lexer.h) and a recursive-descent, precedence-climbing parser
(src/parser.h) producing AST nodes (src/ast.h).

Modelling conventions, all translated from the C++ source:
* The character stream read by `getchar` is a `List Char`; the lexer's
  persistent `LastChar` buffer is an `Option Char`, `none` standing for the
  C `EOF` value (which only arises from reading past the end of the input).
* Token codes are `Int`s exactly as in the source: `tok_eof = -1`,
  `tok_def = -2`, ..., and a plain symbol is returned as its character code.
  The globals `IdentifierStr` and `NumVal` are carried alongside.
* `NumVal` is a `double` in the source, produced by `strtod` on a string of
  digits and dots.  We model the value as an exact rational (`Rat`): `strtod`
  on such strings parses the longest `digits [ '.' digits ]` prefix, which we
  reproduce exactly; every numeral appearing in the verified claims is a small
  integer, where the rational and the IEEE double agree exactly.
* The parser's mutable globals (`CurTok`, `BinopPrecedence`, the stderr
  diagnostic stream) become fields of an explicit state `PState` threaded
  through every function.  `std::map<char,int>::operator[]` is modelled
  faithfully, including its insertion of a zero-valued entry for a missing
  key.  `PState.callsBuilt` counts executions of the single
  `std::make_unique<CallExprAST>` site, so that "no Call node was built on
  this run" is an evaluable statement; it alters no behavior.
* The mutually recursive parse functions take a fuel argument (`Nat`)
  decremented at each entry; `PRes.fuelOut` marks exhaustion.  Termination
  of the source's loops is then a provable statement (a computable fuel
  bound suffices), established below.
-/

/-! ## Character classification (C ctype, ASCII locale) -/

/-- C `isspace`: space, \t, \n, \v, \f, \r. -/
def isspaceC (c : Char) : Bool :=
  c = ' ' || c = '\t' || c = '\n' || c = '\x0b' || c = '\x0c' || c = '\r'

/-- C `isalpha` in the ASCII range: [a-zA-Z]. -/
def isalphaC (c : Char) : Bool :=
  ('a' ≤ c && c ≤ 'z') || ('A' ≤ c && c ≤ 'Z')

/-- C `isdigit`: [0-9]. -/
def isdigitC (c : Char) : Bool :=
  '0' ≤ c && c ≤ '9'

/-- C `isalnum`: letter or digit. -/
def isalnumC (c : Char) : Bool :=
  isalphaC c || isdigitC c

/-- The lexer's number-scan guard: `isdigit(LastChar) || LastChar == '.'`. -/
def isdigitdotC (c : Char) : Bool :=
  isdigitC c || c = '.'

/-! ## Token codes (lexer.h, enum Token) -/

def tok_eof : Int := -1
def tok_def : Int := -2
/-- Models the source's token code for the keyword after `def` in the enum
(the `extern` keyword token, value -3). -/
def tok_ext : Int := -3
def tok_identifier : Int := -4
def tok_number : Int := -5

/-! ## The input stream and `getchar` -/

/-- The lexer's persistent state: the unread input and the buffered
`LastChar` (`none` = the C `EOF` sentinel). -/
structure LexState where
  input : List Char
  lastChar : Option Char
  deriving Repr, DecidableEq

/-- `getchar()`: pop the next character, or report end of input. -/
def getchar : List Char → Option Char × List Char
  | [] => (none, [])
  | c :: rest => (some c, rest)

/-- The fused whitespace/comment-skipping phase of `gettok`.  The source
expresses it as a whitespace `while` loop plus a comment `do`-`while` loop
followed by a recursive `return gettok();`; since a comment terminator
(`'\n'`/`'\r'`) is itself whitespace that the recursive call immediately
skips, the net effect is this single left-to-right scan (`inComment` tells
whether the scan is currently inside a `'#'` comment).  Written as one
structural recursion so that it evaluates inside the kernel.  Returns the
first significant character as the new `LastChar` (or `none` for EOF) plus
the remaining input. -/
def skipBlank (inComment : Bool) : List Char → Option Char × List Char
  | [] => (none, [])
  | c :: rest =>
    if inComment then
      if c = '\n' || c = '\r' then skipBlank false rest
      else skipBlank true rest
    else
      if isspaceC c then skipBlank false rest
      else if c = '#' then skipBlank true rest
      else (some c, rest)

/-- Entry to the skipping phase from the buffered `LastChar`: when the
buffer already holds a significant character (or the EOF sentinel), nothing
is consumed. -/
def skipBlankFrom (lc : Option Char) (input : List Char) : Option Char × List Char :=
  match lc with
  | none => (none, input)
  | some c =>
    if isspaceC c then skipBlank false input
    else if c = '#' then skipBlank true input
    else (some c, input)

/-- The identifier loop `while (isalnum((LastChar = getchar()))) IdentifierStr += LastChar;`.
`acc` starts as the single alphabetic character already in `LastChar`. -/
def scanIdent (acc : String) : List Char → String × Option Char × List Char
  | [] => (acc, none, [])
  | c :: rest =>
    if isalnumC c then scanIdent (acc.push c) rest else (acc, some c, rest)

/-- The number do-while loop: `NumStr += LastChar; LastChar = getchar();`
repeated while the new character is a digit or `'.'`. -/
def scanNum (acc : String) (c : Char) : List Char → String × Option Char × List Char
  | [] => (acc.push c, none, [])
  | d :: rest =>
    if isdigitdotC d then scanNum (acc.push c) d rest else (acc.push c, some d, rest)

/-! ## strtod on the scanned number string -/

/-- Decimal digits to a natural number. -/
def digitsToNat (l : List Char) : Nat :=
  l.foldl (fun n c => n * 10 + (c.toNat - 48)) 0

/-- `strtod` restricted to the strings the lexer can produce (digits and
dots): parses the longest `digits ['.' digits]` prefix, as an exact
rational.  A string with no leading digits and no `.digits` prefix (such as
`"."`) converts to 0, as `strtod` returns 0 when no conversion happens. -/
def strtodQ (s : String) : Rat :=
  let l := s.toList
  let intPart := l.takeWhile (fun c => isdigitC c)
  let rest := l.dropWhile (fun c => isdigitC c)
  match rest with
  | '.' :: rest2 =>
    let fracPart := rest2.takeWhile (fun c => isdigitC c)
    (digitsToNat intPart : Rat) + (digitsToNat fracPart : Rat) / ((10 : Rat) ^ fracPart.length)
  | _ => (digitsToNat intPart : Rat)

/-! ## Lexer measure, for termination of `gettok` -/

/-- Count of unconsumed characters, the buffered `LastChar` included. -/
def lexM (lc : Option Char) (input : List Char) : Nat :=
  input.length + (match lc with | some _ => 1 | none => 0)

theorem skipBlank_le (b : Bool) (input : List Char) :
    lexM (skipBlank b input).1 (skipBlank b input).2 ≤ input.length := by
  induction input generalizing b with
  | nil => cases b <;> simp [skipBlank, lexM]
  | cons c rest ih =>
    cases b with
    | true =>
      by_cases h : (c = '\n' || c = '\r') = true
      · simp only [skipBlank, h, if_pos]
        exact le_trans (ih false) (by simp)
      · simp only [skipBlank, h, if_neg, Bool.not_eq_true]
        exact le_trans (ih true) (by simp)
    | false =>
      by_cases h1 : isspaceC c
      · simp only [skipBlank, h1, if_pos]
        exact le_trans (ih false) (by simp)
      · by_cases h2 : c = '#'
        · simp only [skipBlank, h1, h2, if_neg, if_pos, Bool.false_eq_true,
            not_false_eq_true]
          exact le_trans (ih true) (by simp)
        · simp [skipBlank, h1, h2, lexM]

theorem skipBlankFrom_le (lc : Option Char) (input : List Char) :
    lexM (skipBlankFrom lc input).1 (skipBlankFrom lc input).2 ≤ lexM lc input := by
  match lc with
  | none => simp [skipBlankFrom, lexM]
  | some c =>
    by_cases h1 : isspaceC c
    · simp only [skipBlankFrom, h1, if_pos]
      exact le_trans (skipBlank_le false input) (by simp [lexM])
    · by_cases h2 : c = '#'
      · simp only [skipBlankFrom, h1, h2, if_neg, if_pos, Bool.false_eq_true,
          not_false_eq_true]
        exact le_trans (skipBlank_le true input) (by simp [lexM])
      · simp [skipBlankFrom, h1, h2, lexM]

/-! ## gettok (lexer.h) -/

/-- `gettok()`: return the next token from the input.  Takes and returns the
globals `IdentifierStr` and `NumVal` alongside the lexer state; the returned
`Int` is the token code (negative enum value, or a character's code). -/
def gettok (st : LexState) (idStr : String) (numVal : Rat) :
    Int × String × Rat × LexState :=
  match skipBlankFrom st.lastChar st.input with
  | (none, input1) =>
    -- Check for end of file.  Don't eat the EOF.
    (tok_eof, idStr, numVal, ⟨input1, none⟩)
  | (some c, input1) =>
    if isalphaC c then
      -- Identifier: [a-zA-Z][a-zA-Z0-9]*
      match scanIdent (String.singleton c) input1 with
      | (idStr1, lc2, input2) =>
        if idStr1 = "def" then (tok_def, idStr1, numVal, ⟨input2, lc2⟩)
        else if idStr1 = "extern" then (tok_ext, idStr1, numVal, ⟨input2, lc2⟩)
        else (tok_identifier, idStr1, numVal, ⟨input2, lc2⟩)
    else if isdigitdotC c then
      -- Number: [0-9.]+
      match scanNum "" c input1 with
      | (numStr, lc2, input2) =>
        (tok_number, idStr, strtodQ numStr, ⟨input2, lc2⟩)
    else
      -- Return the character as its code value.
      match getchar input1 with
      | (lc2, input2) => ((c.toNat : Int), idStr, numVal, ⟨input2, lc2⟩)

/-! ## AST (ast.h) -/

/-- Expression nodes.  `BinaryExprAST`'s operator is stored as the `Int`
token code placed in `binOp` by the parser (`int binOp = CurTok;`); every
construction the parser performs stores a plain ASCII symbol code there. -/
inductive ExprAST where
  | NumberExprAST (value : Rat)
  | VariableExprAST (name : String)
  | BinaryExprAST (op : Int) (lhs rhs : ExprAST)
  | CallExprAST (callee : String) (args : List ExprAST)
  deriving Repr

/-- PrototypeAST: a function's name and parameter names, in source order. -/
structure PrototypeAST where
  name : String
  args : List String
  deriving Repr, DecidableEq

/-- FunctionAST: a prototype together with a body expression. -/
structure FunctionAST where
  prototype : PrototypeAST
  body : ExprAST
  deriving Repr

/-! ## Parser state (the source's globals, made explicit) -/

/-- The parser's mutable environment: the lexer state, the `CurTok` cursor,
the token-payload globals, the `BinopPrecedence` map, the stderr diagnostic
lines printed by `LogError`, and an observation counter for the single
`std::make_unique<CallExprAST>` construction site. -/
structure PState where
  lex : LexState
  curTok : Int
  identifierStr : String
  numVal : Rat
  binopPrecedence : List (Char × Int)
  log : List String
  callsBuilt : Nat
  deriving Repr

/-- `getNextToken()`: advance `CurTok` (and the payload globals) by one call
to `gettok`. -/
def getNextToken (s : PState) : PState :=
  match gettok s.lex s.identifierStr s.numVal with
  | (t, idStr, numVal, lex') =>
    { s with lex := lex', curTok := t, identifierStr := idStr, numVal := numVal }

/-- The `fprintf(stderr, "Error: %s\n", str)` side of `LogError`. -/
def pushLog (str : String) (s : PState) : PState :=
  { s with log := s.log ++ [str] }

/-! ## Operator precedence table (parser.h) -/

/-- `BinaryOperatorsInstalled()`: the table is non-empty. -/
def BinaryOperatorsInstalled (m : List (Char × Int)) : Bool :=
  !m.isEmpty

/-- `InstallBinaryOperators()`: populate `{'<':10, '+':20, '-':20, '*':40}`
once; a no-op when already installed. -/
def InstallBinaryOperators (m : List (Char × Int)) : List (Char × Int) :=
  if BinaryOperatorsInstalled m then m
  else [('<', 10), ('+', 20), ('-', 20), ('*', 40)]

/-- `std::map<char,int>::operator[]`: return the stored value, or insert a
value-initialized (zero) entry for a missing key and return it. -/
def mapGet (m : List (Char × Int)) (c : Char) : Int × List (Char × Int) :=
  match m.lookup c with
  | some v => (v, m)
  | none => (0, m ++ [(c, 0)])

/-- `isascii(CurTok)`: the token code is in [0,127]. -/
def isasciiI (t : Int) : Bool :=
  0 ≤ t && t ≤ 127

/-- `GetTokPrecendence()` (sic): precedence of the pending binary-operator
token.  -1 for a non-ASCII-symbol token or a symbol with no positive table
entry; -2 (plus a diagnostic) when the table was never installed.  The
`operator[]` access may insert a zero entry into the table. -/
def GetTokPrecendence (s : PState) : Int × PState :=
  if !isasciiI s.curTok then (-1, s)
  else if !BinaryOperatorsInstalled s.binopPrecedence then
    (-2, pushLog "Binary operators are not installed yet." s)
  else
    match mapGet s.binopPrecedence (Char.ofNat s.curTok.toNat) with
    | (tokPrec, m') =>
      let s' := { s with binopPrecedence := m' }
      if tokPrec ≤ 0 then (-1, s') else (tokPrec, s')

/-! ## Parse results -/

/-- Outcome of a fueled parse function: fuel exhaustion, or the source
function's return value (`none` = `nullptr`) together with the final state. -/
inductive PRes (α : Type) where
  | fuelOut
  | done (r : Option α) (s : PState)
  deriving Repr

/-- `LogError(str)`: print a diagnostic and return `nullptr`. -/
def LogErrorE (str : String) (s : PState) : PRes ExprAST :=
  .done none (pushLog str s)

/-- `LogErrorP(str)`: diagnostic plus `nullptr` prototype. -/
def LogErrorP (str : String) (s : PState) : PRes PrototypeAST :=
  .done none (pushLog str s)

/-- `ParseNumberExpr()`: build a `NumberExprAST` from `NumVal` and consume
the number token.  (Not recursive, hence not fueled.) -/
def ParseNumberExpr (s : PState) : Option ExprAST × PState :=
  (some (.NumberExprAST s.numVal), getNextToken s)

/-- The construction site `std::make_unique<CallExprAST>(idName, args)`,
with its execution counted in `callsBuilt`. -/
def mkCallNode (idName : String) (args : List ExprAST) (s : PState) : PRes ExprAST :=
  .done (some (.CallExprAST idName args)) { s with callsBuilt := s.callsBuilt + 1 }

/-! ## The mutually recursive expression parser (parser.h) -/

mutual

/-- `ParseIdentifierExpr()`: a variable reference, or a call when the
identifier is followed by `'('`. -/
def ParseIdentifierExpr (fuel : Nat) (s : PState) : PRes ExprAST :=
  match fuel with
  | 0 => .fuelOut
  | fuel + 1 =>
    let idName := s.identifierStr
    let s := getNextToken s  -- consume the identifier
    if s.curTok ≠ (('(').toNat : Int) then
      .done (some (.VariableExprAST idName)) s
    else
      let s := getNextToken s  -- consume '('
      if s.curTok = ((')').toNat : Int) then
        mkCallNode idName [] (getNextToken s)  -- consume ')'
      else
        ParseArgsLoop fuel idName [] s

/-- The argument-list `while (true)` loop inside `ParseIdentifierExpr`. -/
def ParseArgsLoop (fuel : Nat) (idName : String) (args : List ExprAST) (s : PState) :
    PRes ExprAST :=
  match fuel with
  | 0 => .fuelOut
  | fuel + 1 =>
    match ParseExpression fuel s with
    | .fuelOut => .fuelOut
    | .done none s => .done none s
    | .done (some arg) s =>
      let args := args ++ [arg]
      if s.curTok = ((')').toNat : Int) then
        mkCallNode idName args (getNextToken s)  -- consume ')'
      else if s.curTok ≠ ((',').toNat : Int) then
        LogErrorE "Expected ')' or ',' in argument list" s
      else
        ParseArgsLoop fuel idName args (getNextToken s)

/-- `ParseParenExpr()`: `'(' expression ')'`, returning the inner node. -/
def ParseParenExpr (fuel : Nat) (s : PState) : PRes ExprAST :=
  match fuel with
  | 0 => .fuelOut
  | fuel + 1 =>
    let s := getNextToken s  -- consume '('
    match ParseExpression fuel s with
    | .fuelOut => .fuelOut
    | .done none s => .done none s
    | .done (some e) s =>
      if s.curTok ≠ ((')').toNat : Int) then
        LogErrorE "expected ')'" s
      else
        .done (some e) (getNextToken s)  -- consume ')'

/-- `ParsePrimary()`: dispatch on `CurTok`. -/
def ParsePrimary (fuel : Nat) (s : PState) : PRes ExprAST :=
  match fuel with
  | 0 => .fuelOut
  | fuel + 1 =>
    if s.curTok = tok_identifier then ParseIdentifierExpr fuel s
    else if s.curTok = tok_number then
      match ParseNumberExpr s with
      | (r, s') => .done r s'
    else if s.curTok = (('(').toNat : Int) then ParseParenExpr fuel s
    else LogErrorE "Unknown token when expecting an expression." s

/-- `ParseExpression()`: a primary followed by the binary-operator tail,
with minimum-precedence floor 0. -/
def ParseExpression (fuel : Nat) (s : PState) : PRes ExprAST :=
  match fuel with
  | 0 => .fuelOut
  | fuel + 1 =>
    match ParsePrimary fuel s with
    | .fuelOut => .fuelOut
    | .done none s => .done none s
    | .done (some lhs) s => ParseBinOpRHS fuel 0 lhs s

/-- `ParseBinOpRHS(exprPrec, LHS)`: the precedence-climbing loop.  Each
recursive self-call with the same `exprPrec` is one more iteration of the
source's `while (true)` loop. -/
def ParseBinOpRHS (fuel : Nat) (exprPrec : Int) (lhs : ExprAST) (s : PState) :
    PRes ExprAST :=
  match fuel with
  | 0 => .fuelOut
  | fuel + 1 =>
    match GetTokPrecendence s with
    | (tokPrec, s) =>
      if tokPrec < exprPrec then .done (some lhs) s
      else
        let binOp := s.curTok
        let s := getNextToken s  -- consume binop
        match ParsePrimary fuel s with
        | .fuelOut => .fuelOut
        | .done none s => .done none s
        | .done (some rhs) s =>
          match GetTokPrecendence s with
          | (nextPrec, s) =>
            if tokPrec < nextPrec then
              match ParseBinOpRHS fuel (tokPrec + 1) rhs s with
              | .fuelOut => .fuelOut
              | .done none s => .done none s
              | .done (some rhs') s =>
                ParseBinOpRHS fuel exprPrec (.BinaryExprAST binOp lhs rhs') s
            else
              ParseBinOpRHS fuel exprPrec (.BinaryExprAST binOp lhs rhs) s

end

/-! ## Prototype / definition / top-level parsers (parser.h) -/

/-- The parameter-name loop `while (getNextToken() == tok_identifier)
argNames.push_back(IdentifierStr);`.  Never returns `none` on `done`. -/
def ParseProtoArgs (fuel : Nat) (argNames : List String) (s : PState) :
    PRes (List String) :=
  match fuel with
  | 0 => .fuelOut
  | fuel + 1 =>
    let s := getNextToken s
    if s.curTok = tok_identifier then
      ParseProtoArgs fuel (argNames ++ [s.identifierStr]) s
    else
      .done (some argNames) s

/-- `ParsePrototype()`: `id '(' id* ')'`. -/
def ParsePrototype (fuel : Nat) (s : PState) : PRes PrototypeAST :=
  if s.curTok ≠ tok_identifier then
    LogErrorP "Expected function name in prototype" s
  else
    let fnName := s.identifierStr
    let s := getNextToken s
    if s.curTok ≠ (('(').toNat : Int) then
      LogErrorP "Expected '(' in prototype" s
    else
      match ParseProtoArgs fuel [] s with
      | .fuelOut => .fuelOut
      | .done none s => .done none s
      | .done (some argNames) s =>
        if s.curTok ≠ ((')').toNat : Int) then
          LogErrorP "Expected ')' in prototype" s
        else
          .done (some ⟨fnName, argNames⟩) (getNextToken s)  -- consume ')'

/-- `ParseDefinition()`: `'def' prototype expression`. -/
def ParseDefinition (fuel : Nat) (s : PState) : PRes FunctionAST :=
  let s := getNextToken s  -- consume 'def'
  match ParsePrototype fuel s with
  | .fuelOut => .fuelOut
  | .done none s => .done none s
  | .done (some prototype) s =>
    match ParseExpression fuel s with
    | .fuelOut => .fuelOut
    | .done none s => .done none s
    | .done (some expression) s => .done (some ⟨prototype, expression⟩) s

/-- `ParseExtern()` in the source: `'extern' prototype`. -/
def ParseExtDecl (fuel : Nat) (s : PState) : PRes PrototypeAST :=
  ParsePrototype fuel (getNextToken s)  -- consume 'extern'

/-- `ParseTopLevelExpr()`: a bare expression wrapped in an anonymous
prototype. -/
def ParseTopLevelExpr (fuel : Nat) (s : PState) : PRes FunctionAST :=
  match ParseExpression fuel s with
  | .fuelOut => .fuelOut
  | .done none s => .done none s
  | .done (some expression) s => .done (some ⟨⟨"", []⟩, expression⟩) s

/-! ## The driver loop (parser.h, MainLoop + Handle*) -/

/-- Result of running `MainLoop`: fuel exhaustion, or the number of
successfully parsed top-level constructs with the final state. -/
inductive LoopRes where
  | fuelOut
  | done (constructs : Nat) (s : PState)
  deriving Repr

/-- `MainLoop()`: dispatch on `CurTok` until `tok_eof`, with the `Handle*`
bodies inlined (on success a message is printed; on failure one token is
skipped for error recovery).  Counts successfully parsed constructs.  The
interactive "ready> " prompt printed each iteration is presentation only
and is not modelled in the log. -/
def MainLoop (fuel : Nat) (s : PState) : LoopRes :=
  match fuel with
  | 0 => .fuelOut
  | fuel + 1 =>
    if s.curTok = tok_eof then .done 0 s
    else if s.curTok = ((';').toNat : Int) then
      MainLoop fuel (getNextToken s)  -- ignore top-level semicolons
    else if s.curTok = tok_def then
      match ParseDefinition fuel s with
      | .fuelOut => .fuelOut
      | .done none s =>
        MainLoop fuel (getNextToken s)  -- skip token for error recovery
      | .done (some _) s =>
        match MainLoop fuel (pushLog "Parsed a function definition." s) with
        | .fuelOut => .fuelOut
        | .done n s => .done (n + 1) s
    else if s.curTok = tok_ext then
      match ParseExtDecl fuel s with
      | .fuelOut => .fuelOut
      | .done none s => MainLoop fuel (getNextToken s)
      | .done (some _) s =>
        match MainLoop fuel (pushLog "Parsed an extern" s) with
        | .fuelOut => .fuelOut
        | .done n s => .done (n + 1) s
    else
      match ParseTopLevelExpr fuel s with
      | .fuelOut => .fuelOut
      | .done none s => MainLoop fuel (getNextToken s)
      | .done (some _) s =>
        match MainLoop fuel (pushLog "Parsed a top-level expr" s) with
        | .fuelOut => .fuelOut
        | .done n s => .done (n + 1) s

/-! ## Entry points for whole-input runs -/

/-- The process-start state on a given input: `LastChar = ' '`, `CurTok`
zero-initialized, empty-string/zero payload globals, a given precedence
table, nothing logged, no Call nodes built. -/
def initState (input : String) (table : List (Char × Int)) : PState :=
  { lex := ⟨input.toList, some ' '⟩
    curTok := 0
    identifierStr := ""
    numVal := 0
    binopPrecedence := table
    log := []
    callsBuilt := 0 }

/-- Prime the token cursor: the driver's first `getNextToken()`. -/
def primeState (input : String) (table : List (Char × Int)) : PState :=
  getNextToken (initState input table)

/-- The table produced by `InstallBinaryOperators` from scratch. -/
def installedTable : List (Char × Int) :=
  InstallBinaryOperators []

/-- Project a parse outcome to its returned value (`none` = ran out of
fuel; `some none` = the source function returned `nullptr`). -/
def resOf {α : Type} : PRes α → Option (Option α)
  | .fuelOut => none
  | .done r _ => some r

/-- Project a parse outcome to its final state. -/
def stateOf {α : Type} : PRes α → Option PState
  | .fuelOut => none
  | .done _ s => some s

/-! ## Table-extension order (for the precedence-table invariant) -/

/-- `m'` extends `m` by appending only zero-valued entries: the shape of
change that `mapGet` (i.e. `std::map::operator[]` on a missing key) can
inflict on `BinopPrecedence`. -/
def TableExt (m m' : List (Char × Int)) : Prop :=
  ∃ t, m' = m ++ t ∧ ∀ p ∈ t, p.2 = 0

theorem TableExt.rfl (m : List (Char × Int)) : TableExt m m :=
  ⟨[], by simp, by simp⟩

theorem TableExt.trans {m1 m2 m3 : List (Char × Int)}
    (h1 : TableExt m1 m2) (h2 : TableExt m2 m3) : TableExt m1 m3 := by
  obtain ⟨t1, rfl, ht1⟩ := h1
  obtain ⟨t2, rfl, ht2⟩ := h2
  refine ⟨t1 ++ t2, by simp, ?_⟩
  intro p hp
  rcases List.mem_append.mp hp with h | h
  · exact ht1 p h
  · exact ht2 p h

theorem TableExt.lookup_some {m m' : List (Char × Int)} {c : Char} {v : Int}
    (h : TableExt m m') (hv : List.lookup c m = some v) :
    List.lookup c m' = some v := by
  obtain ⟨t, rfl, _⟩ := h
  induction m with
  | nil => simp [List.lookup] at hv
  | cons p rest ih =>
    rw [List.cons_append]
    rw [List.lookup] at hv ⊢
    split at hv
    · exact hv
    · exact ih hv

theorem mapGet_ext (m : List (Char × Int)) (c : Char) :
    TableExt m (mapGet m c).2 := by
  unfold mapGet
  match h : List.lookup c m with
  | some v => exact TableExt.rfl m
  | none => exact ⟨[(c, 0)], by simp, by simp⟩

theorem GetTokPrecendence_ext (s : PState) :
    TableExt s.binopPrecedence (GetTokPrecendence s).2.binopPrecedence := by
  unfold GetTokPrecendence
  split
  · exact TableExt.rfl _
  · split
    · exact TableExt.rfl _
    · have := mapGet_ext s.binopPrecedence (Char.ofNat s.curTok.toNat)
      split
      next tokPrec m' heq =>
        rw [heq] at this
        split <;> exact this

theorem getNextToken_binop (s : PState) :
    (getNextToken s).binopPrecedence = s.binopPrecedence := by
  unfold getNextToken
  split
  rfl

theorem pushLog_binop (str : String) (s : PState) :
    (pushLog str s).binopPrecedence = s.binopPrecedence := rfl

/-! ## Claim C1: precedence of `*` over `+` -/

/-- Claim C1: for the input "1+2*3", with the precedence table installed,
`ParseExpression` returns the tree `BinaryExprAST('+', NumberExprAST 1,
BinaryExprAST('*', NumberExprAST 2, NumberExprAST 3))`: multiplication
binds tighter than addition. -/
theorem c1_precedence_1p2t3 :
    resOf (ParseExpression 50 (primeState "1+2*3" installedTable)) =
      some (some (.BinaryExprAST (('+').toNat : Int) (.NumberExprAST 1)
        (.BinaryExprAST (('*').toNat : Int) (.NumberExprAST 2)
          (.NumberExprAST 3)))) := rfl

/-! ## Claim C2: left associativity of equal precedence -/

/-- Claim C2: for the input "1-2-3", with the precedence table installed,
`ParseExpression` returns `BinaryExprAST('-', BinaryExprAST('-',
NumberExprAST 1, NumberExprAST 2), NumberExprAST 3)`: equal-precedence
operators associate left-to-right, because only a strictly greater
following precedence triggers the recursive right-hand-side re-parse. -/
theorem c2_left_assoc_1m2m3 :
    resOf (ParseExpression 50 (primeState "1-2-3" installedTable)) =
      some (some (.BinaryExprAST (('-').toNat : Int)
        (.BinaryExprAST (('-').toNat : Int) (.NumberExprAST 1)
          (.NumberExprAST 2))
        (.NumberExprAST 3))) := rfl

/-! ## Claim C5: parsing a function definition -/

/-- Claim C5: for the input "def foo(a b) a+b", with the precedence table
installed, `ParseDefinition` returns `FunctionAST(PrototypeAST "foo"
["a","b"], BinaryExprAST('+', VariableExprAST "a", VariableExprAST "b"))`,
the parameter names in source declaration order. -/
theorem c5_parse_definition :
    resOf (ParseDefinition 50 (primeState "def foo(a b) a+b" installedTable)) =
      some (some ⟨⟨"foo", ["a", "b"]⟩,
        .BinaryExprAST (('+').toNat : Int) (.VariableExprAST "a")
          (.VariableExprAST "b")⟩) := rfl

/-! ## Claim C6: unterminated argument list -/

/-- Claim C6: parsing "foo(" fails with an unexpected-token error (the only
diagnostic logged is the parse-failure message, not the distinct
table-not-installed one), and on this failing run no `CallExprAST` is ever
constructed: the inner argument expression fails and short-circuits
`ParseIdentifierExpr` before its single Call construction site runs
(`callsBuilt` stays 0). -/
theorem c6_unterminated_call :
    resOf (ParseExpression 50 (primeState "foo(" installedTable)) = some none ∧
    (stateOf (ParseExpression 50 (primeState "foo(" installedTable))).map
        (fun s => (s.callsBuilt, s.log)) =
      some (0, ["Unknown token when expecting an expression."]) := by
  exact ⟨rfl, by decide⟩

/-! ## Claim C4: GetTokPrecendence case analysis -/

/-- Claim C4: `GetTokPrecendence` returns the table's stored value when the
current token is a single-character ASCII symbol present in the installed
table with positive precedence; returns -1 when the current token is a
symbol absent from the table or with non-positive stored precedence, or is
not an ASCII symbol at all (EndOfInput, keywords, identifiers, numbers all
have negative codes); and returns the distinct not-yet-installed value -2
when an ASCII symbol's precedence is queried before the table is
initialized. -/
theorem c4_gettokprecendence_cases (s : PState) :
    (isasciiI s.curTok = false → (GetTokPrecendence s).1 = -1) ∧
    (s.curTok = tok_eof ∨ s.curTok = tok_def ∨ s.curTok = tok_ext ∨
       s.curTok = tok_identifier ∨ s.curTok = tok_number →
       (GetTokPrecendence s).1 = -1) ∧
    (isasciiI s.curTok = true →
       BinaryOperatorsInstalled s.binopPrecedence = false →
       (GetTokPrecendence s).1 = -2) ∧
    (∀ p, isasciiI s.curTok = true →
       BinaryOperatorsInstalled s.binopPrecedence = true →
       List.lookup (Char.ofNat s.curTok.toNat) s.binopPrecedence = some p →
       0 < p → (GetTokPrecendence s).1 = p) ∧
    (isasciiI s.curTok = true →
       BinaryOperatorsInstalled s.binopPrecedence = true →
       (List.lookup (Char.ofNat s.curTok.toNat) s.binopPrecedence = none ∨
         ∃ p, List.lookup (Char.ofNat s.curTok.toNat) s.binopPrecedence = some p ∧
           p ≤ 0) →
       (GetTokPrecendence s).1 = -1) := by
  refine ⟨?_, ?_, ?_, ?_, ?_⟩
  · intro h
    simp [GetTokPrecendence, h]
  · intro h
    have hna : isasciiI s.curTok = false := by
      rcases h with h | h | h | h | h <;>
        simp [isasciiI, h, tok_eof, tok_def, tok_ext, tok_identifier, tok_number]
    simp [GetTokPrecendence, hna]
  · intro ha hni
    simp [GetTokPrecendence, ha, hni]
  · intro p ha hi hl hp
    simp only [GetTokPrecendence, ha, Bool.not_true, Bool.false_eq_true,
      if_false, hi, if_neg, not_false_eq_true]
    unfold mapGet
    rw [hl]
    simp [not_le.mpr hp, hp]
  · intro ha hi hl
    simp only [GetTokPrecendence, ha, Bool.not_true, Bool.false_eq_true,
      if_false, hi, if_neg, not_false_eq_true]
    unfold mapGet
    rcases hl with hl | ⟨p, hl, hple⟩
    · rw [hl]; simp
    · rw [hl]; simp [hple]

/-- Witness for C4 at concrete inputs: with the table installed and
`CurTok = '+'`, the stored precedence 20 is returned; and at `CurTok =
tok_eof` the result is -1. -/
theorem c4_gettokprecendence_cases_witness :
    (GetTokPrecendence ⟨⟨[], none⟩, (('+').toNat : Int), "", 0,
        installedTable, [], 0⟩).1 = 20 ∧
    (GetTokPrecendence ⟨⟨[], none⟩, tok_eof, "", 0, installedTable, [], 0⟩).1 = -1 := by
  constructor
  · exact (c4_gettokprecendence_cases _).2.2.2.1 20 (by decide) (by decide)
      (by decide) (by decide)
  · exact (c4_gettokprecendence_cases _).2.1 (Or.inl rfl)

/-! ## Claim C3: precedence-table immutability after install -/

theorem parse_tableExt (fuel : Nat) :
    (∀ s r s', ParseIdentifierExpr fuel s = .done r s' →
      TableExt s.binopPrecedence s'.binopPrecedence) ∧
    (∀ idName args s r s', ParseArgsLoop fuel idName args s = .done r s' →
      TableExt s.binopPrecedence s'.binopPrecedence) ∧
    (∀ s r s', ParseParenExpr fuel s = .done r s' →
      TableExt s.binopPrecedence s'.binopPrecedence) ∧
    (∀ s r s', ParsePrimary fuel s = .done r s' →
      TableExt s.binopPrecedence s'.binopPrecedence) ∧
    (∀ s r s', ParseExpression fuel s = .done r s' →
      TableExt s.binopPrecedence s'.binopPrecedence) ∧
    (∀ prec lhs s r s', ParseBinOpRHS fuel prec lhs s = .done r s' →
      TableExt s.binopPrecedence s'.binopPrecedence) := by
  induction fuel with
  | zero =>
    refine ⟨?_, ?_, ?_, ?_, ?_, ?_⟩ <;> intros <;>
      simp_all [ParseIdentifierExpr, ParseArgsLoop, ParseParenExpr,
        ParsePrimary, ParseExpression, ParseBinOpRHS]
  | succ n ih =>
    obtain ⟨ihI, ihA, ihPar, ihP, ihE, ihB⟩ := ih
    refine ⟨?_, ?_, ?_, ?_, ?_, ?_⟩
    · -- ParseIdentifierExpr
      intro s r s' h
      simp only [ParseIdentifierExpr] at h
      split at h
      · cases h
        rw [getNextToken_binop]
        exact TableExt.rfl _
      · split at h
        · cases h
          simp only [mkCallNode]
          rw [getNextToken_binop, getNextToken_binop, getNextToken_binop]
          exact TableExt.rfl _
        · have := ihA _ _ _ _ _ h
          rw [getNextToken_binop, getNextToken_binop] at this
          exact this
    · -- ParseArgsLoop
      intro idName args s r s' h
      simp only [ParseArgsLoop] at h
      split at h
      · exact absurd h (by simp)
      next s1 heq =>
        cases h
        exact ihE _ _ _ heq
      next arg s1 heq =>
        have h1 := ihE _ _ _ heq
        split at h
        · cases h
          simp only [mkCallNode]
          rw [getNextToken_binop]
          exact h1
        · split at h
          · cases h
            exact h1
          · have h2 := ihA _ _ _ _ _ h
            rw [getNextToken_binop] at h2
            exact h1.trans h2
    · -- ParseParenExpr
      intro s r s' h
      simp only [ParseParenExpr] at h
      split at h
      · exact absurd h (by simp)
      next s1 heq =>
        cases h
        have h1 := ihE _ _ _ heq
        rw [getNextToken_binop] at h1
        exact h1
      next e s1 heq =>
        have h1 := ihE _ _ _ heq
        rw [getNextToken_binop] at h1
        split at h
        · cases h
          exact h1
        · cases h
          rw [getNextToken_binop]
          exact h1
    · -- ParsePrimary
      intro s r s' h
      simp only [ParsePrimary] at h
      split at h
      · exact ihI _ _ _ h
      · split at h
        · simp only [ParseNumberExpr] at h
          cases h
          rw [getNextToken_binop]
          exact TableExt.rfl _
        · split at h
          · exact ihPar _ _ _ h
          · simp only [LogErrorE] at h
            cases h
            exact TableExt.rfl _
    · -- ParseExpression
      intro s r s' h
      simp only [ParseExpression] at h
      split at h
      · exact absurd h (by simp)
      next s1 heq =>
        cases h
        exact ihP _ _ _ heq
      next lhs s1 heq =>
        exact (ihP _ _ _ heq).trans (ihB _ _ _ _ _ h)
    · -- ParseBinOpRHS
      intro prec lhs s r s' h
      simp only [ParseBinOpRHS] at h
      have h0 := GetTokPrecendence_ext s
      split at h
      · cases h
        exact h0
      · split at h
        · exact absurd h (by simp)
        next s2 heq2 =>
          cases h
          have h2 := ihP _ _ _ heq2
          rw [getNextToken_binop] at h2
          exact h0.trans h2
        next rhs s2 heq2 =>
          have h2 := ihP _ _ _ heq2
          rw [getNextToken_binop] at h2
          have h3 := GetTokPrecendence_ext s2
          split at h
          · split at h
            · exact absurd h (by simp)
            next s4 heq4 =>
              cases h
              exact ((h0.trans h2).trans h3).trans (ihB _ _ _ _ _ heq4)
            next rhs2 s4 heq4 =>
              exact (((h0.trans h2).trans h3).trans
                (ihB _ _ _ _ _ heq4)).trans (ihB _ _ _ _ _ h)
          · exact ((h0.trans h2).trans h3).trans (ihB _ _ _ _ _ h)

theorem ParseProtoArgs_binop (fuel : Nat) :
    ∀ argNames s r s', ParseProtoArgs fuel argNames s = .done r s' →
      s'.binopPrecedence = s.binopPrecedence := by
  induction fuel with
  | zero => intro argNames s r s' h; simp [ParseProtoArgs] at h
  | succ n ih =>
    intro argNames s r s' h
    simp only [ParseProtoArgs] at h
    split at h
    · rw [ih _ _ _ _ h, getNextToken_binop]
    · cases h
      rw [getNextToken_binop]

theorem ParsePrototype_binop (fuel : Nat) :
    ∀ s r s', ParsePrototype fuel s = .done r s' →
      s'.binopPrecedence = s.binopPrecedence := by
  intro s r s' h
  simp only [ParsePrototype] at h
  split at h
  · simp only [LogErrorP] at h
    cases h
    rfl
  · split at h
    · simp only [LogErrorP] at h
      cases h
      rw [pushLog_binop, getNextToken_binop]
    · split at h
      · exact absurd h (by simp)
      next s2 heq2 =>
        cases h
        rw [ParseProtoArgs_binop _ _ _ _ _ heq2, getNextToken_binop]
      next argNames s2 heq2 =>
        have h2 : s2.binopPrecedence = s.binopPrecedence := by
          rw [ParseProtoArgs_binop _ _ _ _ _ heq2, getNextToken_binop]
        split at h
        · simp only [LogErrorP] at h
          cases h
          exact h2
        · cases h
          rw [getNextToken_binop]
          exact h2

theorem ParseDefinition_ext (fuel : Nat) :
    ∀ s r s', ParseDefinition fuel s = .done r s' →
      TableExt s.binopPrecedence s'.binopPrecedence := by
  intro s r s' h
  simp only [ParseDefinition] at h
  split at h
  · exact absurd h (by simp)
  next s2 heq2 =>
    cases h
    rw [ParsePrototype_binop _ _ _ _ heq2, getNextToken_binop]
    exact TableExt.rfl _
  next proto s2 heq2 =>
    have h2 : s2.binopPrecedence = s.binopPrecedence := by
      rw [ParsePrototype_binop _ _ _ _ heq2, getNextToken_binop]
    split at h
    · exact absurd h (by simp)
    next s3 heq3 =>
      cases h
      have := (parse_tableExt fuel).2.2.2.2.1 _ _ _ heq3
      rw [h2] at this
      exact this
    next body s3 heq3 =>
      cases h
      have := (parse_tableExt fuel).2.2.2.2.1 _ _ _ heq3
      rw [h2] at this
      exact this

theorem ParseExtDecl_binop (fuel : Nat) :
    ∀ s r s', ParseExtDecl fuel s = .done r s' →
      s'.binopPrecedence = s.binopPrecedence := by
  intro s r s' h
  simp only [ParseExtDecl] at h
  rw [ParsePrototype_binop _ _ _ _ h, getNextToken_binop]

theorem ParseTopLevelExpr_ext (fuel : Nat) :
    ∀ s r s', ParseTopLevelExpr fuel s = .done r s' →
      TableExt s.binopPrecedence s'.binopPrecedence := by
  intro s r s' h
  simp only [ParseTopLevelExpr] at h
  split at h
  · exact absurd h (by simp)
  next s2 heq2 =>
    cases h
    exact (parse_tableExt fuel).2.2.2.2.1 _ _ _ heq2
  next e s2 heq2 =>
    cases h
    exact (parse_tableExt fuel).2.2.2.2.1 _ _ _ heq2

theorem MainLoop_ext (fuel : Nat) :
    ∀ s n s', MainLoop fuel s = .done n s' →
      TableExt s.binopPrecedence s'.binopPrecedence := by
  induction fuel with
  | zero => intro s n s' h; simp [MainLoop] at h
  | succ m ih =>
    intro s n s' h
    simp only [MainLoop] at h
    split at h
    · cases h
      exact TableExt.rfl _
    · split at h
      · have := ih _ _ _ h
        rw [getNextToken_binop] at this
        exact this
      · split at h
        · split at h
          · exact absurd h (by simp)
          next s2 heq2 =>
            have h2 := ParseDefinition_ext _ _ _ _ heq2
            have h3 := ih _ _ _ h
            rw [getNextToken_binop] at h3
            exact h2.trans h3
          next f s2 heq2 =>
            have h2 := ParseDefinition_ext _ _ _ _ heq2
            split at h
            · exact absurd h (by simp)
            next n2 s3 heq3 =>
              cases h
              have h3 := ih _ _ _ heq3
              rw [pushLog_binop] at h3
              exact h2.trans h3
        · split at h
          · split at h
            · exact absurd h (by simp)
            next s2 heq2 =>
              have h2 := ParseExtDecl_binop _ _ _ _ heq2
              have h3 := ih _ _ _ h
              rw [getNextToken_binop, h2] at h3
              exact h3
            next p s2 heq2 =>
              have h2 := ParseExtDecl_binop _ _ _ _ heq2
              split at h
              · exact absurd h (by simp)
              next n2 s3 heq3 =>
                cases h
                have h3 := ih _ _ _ heq3
                rw [pushLog_binop, h2] at h3
                exact h3
          · split at h
            · exact absurd h (by simp)
            next s2 heq2 =>
              have h2 := ParseTopLevelExpr_ext _ _ _ _ heq2
              have h3 := ih _ _ _ h
              rw [getNextToken_binop] at h3
              exact h2.trans h3
            next f s2 heq2 =>
              have h2 := ParseTopLevelExpr_ext _ _ _ _ heq2
              split at h
              · exact absurd h (by simp)
              next n2 s3 heq3 =>
                cases h
                have h3 := ih _ _ _ heq3
                rw [pushLog_binop] at h3
                exact h2.trans h3

theorem lookup_append_none {c : Char} {m t : List (Char × Int)}
    (h : List.lookup c m = none) :
    List.lookup c (m ++ t) = List.lookup c t := by
  induction m with
  | nil => simp
  | cons p rest ih =>
    rw [List.cons_append, List.lookup] at *
    split at h
    · exact absurd h (by simp)
    · simp_all [List.lookup]

theorem lookup_all_zero {c : Char} {t : List (Char × Int)} {v : Int}
    (hz : ∀ p ∈ t, p.2 = 0) (h : List.lookup c t = some v) : v = 0 := by
  induction t with
  | nil => simp [List.lookup] at h
  | cons p rest ih =>
    rw [List.lookup] at h
    split at h
    · cases h
      exact hz p (by simp)
    · exact ih (fun q hq => hz q (by simp [hq])) h

theorem c3x_install_idem (m : List (Char × Int))
    (h : BinaryOperatorsInstalled m = true) : InstallBinaryOperators m = m := by
  simp [InstallBinaryOperators, h]

theorem c3x_query_invariant (s₁ s₂ : PState)
    (hinst : BinaryOperatorsInstalled s₁.binopPrecedence = true)
    (hcur : s₂.curTok = s₁.curTok)
    (hext : TableExt s₁.binopPrecedence s₂.binopPrecedence) :
    (GetTokPrecendence s₂).1 = (GetTokPrecendence s₁).1 := by
  obtain ⟨t, ht, hz⟩ := hext
  have hinst₂ : BinaryOperatorsInstalled s₂.binopPrecedence = true := by
    simp only [BinaryOperatorsInstalled, List.isEmpty_iff] at hinst ⊢
    rw [ht]
    simp_all
  by_cases ha : isasciiI s₁.curTok
  · simp only [GetTokPrecendence, ha, hcur, hinst, hinst₂, Bool.not_true,
      Bool.false_eq_true, if_false, if_neg, not_false_eq_true]
    unfold mapGet
    cases hl : List.lookup (Char.ofNat s₁.curTok.toNat) s₁.binopPrecedence with
    | some v =>
      have hl₂ : List.lookup (Char.ofNat s₁.curTok.toNat) s₂.binopPrecedence = some v := by
        exact TableExt.lookup_some ⟨t, ht, hz⟩ hl
      rw [hl₂]
      by_cases hv : v ≤ 0 <;> simp [hv]
    | none =>
      cases hl₂ : List.lookup (Char.ofNat s₁.curTok.toNat) s₂.binopPrecedence with
      | some v =>
        have : v = 0 := by
          rw [ht] at hl₂
          rw [lookup_append_none hl] at hl₂
          exact lookup_all_zero hz hl₂
        subst this
        simp
      | none => simp
  · have ha' : isasciiI s₂.curTok = false := by
      rw [hcur]
      simpa using ha
    simp [GetTokPrecendence, ha', (by simpa using ha : isasciiI s₁.curTok = false)]

/-- Claim C3 counterexample: the claim that after `InstallBinaryOperators`
the table's contents never change is false.  Parsing the concrete input
"1@" makes a precedence query for the symbol `'@'`, which is absent from
the table, and `std::map::operator[]` inserts the zero-valued entry
`('@', 0)`: the final table differs from the installed one. -/
theorem c3_counterexample :
    (stateOf (ParseExpression 50 (primeState "1@" installedTable))).map
        (fun s => s.binopPrecedence) ≠ some installedTable ∧
    (stateOf (ParseExpression 50 (primeState "1@" installedTable))).map
        (fun s => s.binopPrecedence) =
      some (installedTable ++ [('@', 0)]) := by
  exact ⟨by decide, by decide⟩

/-- Claim C3, amended: after `InstallBinaryOperators` has run,
re-installation is a no-op, and no later operation (a precedence query, or
any expression / definition / driver-loop parse) ever changes or removes an
existing table entry or changes the answer of any precedence query; however
a precedence query for an ASCII symbol absent from the table may grow the
table by a zero-valued entry for that symbol (`TableExt`), so the table's
contents are not literally immutable. -/
theorem c3_amended_table_invariant :
    (∀ m, BinaryOperatorsInstalled m = true → InstallBinaryOperators m = m) ∧
    (∀ s, TableExt s.binopPrecedence (GetTokPrecendence s).2.binopPrecedence) ∧
    (∀ s c v, List.lookup c s.binopPrecedence = some v →
       List.lookup c (GetTokPrecendence s).2.binopPrecedence = some v) ∧
    (∀ s₁ s₂, BinaryOperatorsInstalled s₁.binopPrecedence = true →
       s₂.curTok = s₁.curTok →
       TableExt s₁.binopPrecedence s₂.binopPrecedence →
       (GetTokPrecendence s₂).1 = (GetTokPrecendence s₁).1) ∧
    (∀ fuel s r s', ParseExpression fuel s = .done r s' →
       TableExt s.binopPrecedence s'.binopPrecedence) ∧
    (∀ fuel s r s', ParseDefinition fuel s = .done r s' →
       TableExt s.binopPrecedence s'.binopPrecedence) ∧
    (∀ fuel s n s', MainLoop fuel s = .done n s' →
       TableExt s.binopPrecedence s'.binopPrecedence) :=
  ⟨c3x_install_idem,
   GetTokPrecendence_ext,
   fun s c v h => (GetTokPrecendence_ext s).lookup_some h,
   c3x_query_invariant,
   fun fuel => (parse_tableExt fuel).2.2.2.2.1,
   ParseDefinition_ext,
   MainLoop_ext⟩

/-- Witness for the amended C3 at concrete inputs: re-installing over the
installed table is a no-op, and after a query for the absent symbol `'@'`
the stored precedence of `'+'` is still 20. -/
theorem c3_amended_table_invariant_witness :
    InstallBinaryOperators installedTable = installedTable ∧
    List.lookup '+' (GetTokPrecendence ⟨⟨[], none⟩, (('@').toNat : Int), "", 0,
        installedTable, [], 0⟩).2.binopPrecedence = some 20 := by
  constructor
  · exact c3_amended_table_invariant.1 installedTable (by decide)
  · exact c3_amended_table_invariant.2.2.1 _ '+' 20 (by decide)

/-! ## Claim C10: an uninstalled table never aborts an expression parse -/

/-- Claim C10: if the precedence table has not been installed, the
not-yet-installed value -2 returned by `GetTokPrecendence` is below every
non-negative precedence floor, so `ParseBinOpRHS` exits immediately
returning its left-hand side unchanged (likewise -1 for non-symbol
tokens); concretely, `ParseExpression` on "1+2" with the empty table
succeeds with just `NumberExprAST 1`, leaving `'+'` as the current token
and only the not-installed diagnostic logged — the uninstalled-table
condition never aborts an expression parse. -/
theorem c10_uninstalled_never_aborts :
    (∀ (fuel : Nat) (prec : Int) (lhs : ExprAST) (s : PState), 0 ≤ prec →
       BinaryOperatorsInstalled s.binopPrecedence = false →
       ∃ s', ParseBinOpRHS (fuel + 1) prec lhs s = .done (some lhs) s') ∧
    resOf (ParseExpression 50 (primeState "1+2" [])) =
      some (some (.NumberExprAST 1)) ∧
    (stateOf (ParseExpression 50 (primeState "1+2" []))).map
        (fun s => (s.curTok, s.log)) =
      some ((('+').toNat : Int), ["Binary operators are not installed yet."]) := by
  refine ⟨?_, rfl, by decide⟩
  intro fuel prec lhs s hprec hni
  by_cases ha : isasciiI s.curTok
  · refine ⟨pushLog "Binary operators are not installed yet." s, ?_⟩
    simp only [ParseBinOpRHS, GetTokPrecendence, ha, hni, Bool.not_true,
      Bool.not_false, Bool.false_eq_true, if_false, if_true]
    rw [if_pos (by omega)]
  · refine ⟨s, ?_⟩
    simp only [ParseBinOpRHS, GetTokPrecendence, ha, Bool.not_false, if_true]
    rw [if_pos (by omega)]

/-- Witness for C10's general part at fuel 1, floor 0, an empty input and
the empty (uninstalled) table. -/
theorem c10_uninstalled_never_aborts_witness :
    ∃ s', ParseBinOpRHS 1 0 (.NumberExprAST 1) (initState "" []) =
      .done (some (.NumberExprAST 1)) s' :=
  c10_uninstalled_never_aborts.1 0 0 _ _ (by decide) (by decide)

/-! ## Claim C7: whitespace-and-comment inputs tokenize to EndOfInput -/

/-- The claim's input class "solely whitespace characters and '#' line
comments (a final comment may end at end-of-input with no newline)",
phrased as the scan that accepts it: outside a comment only whitespace,
`'#'` opening a comment, or the end; inside a comment any character, with
`'\n'`/`'\r'` closing it. -/
def isBlankText (inComment : Bool) : List Char → Bool
  | [] => true
  | c :: rest =>
    if inComment then
      if c = '\n' || c = '\r' then isBlankText false rest
      else isBlankText true rest
    else
      if isspaceC c then isBlankText false rest
      else if c = '#' then isBlankText true rest
      else false

theorem isBlankText_skipBlank (input : List Char) :
    ∀ b, isBlankText b input = true → skipBlank b input = (none, []) := by
  induction input with
  | nil => intro b _; cases b <;> rfl
  | cons c rest ih =>
    intro b h
    cases b with
    | true =>
      by_cases hc : (c = '\n' || c = '\r') = true
      · rw [isBlankText, if_pos hc] at h
        rw [skipBlank, if_pos hc]
        · exact ih false h
      · rw [isBlankText, if_neg hc] at h
        rw [skipBlank, if_neg hc]
        · exact ih true h
    | false =>
      by_cases h1 : isspaceC c
      · rw [isBlankText, if_neg (by simp), if_pos h1] at h
        rw [skipBlank, if_neg (by simp), if_pos h1]
        exact ih false h
      · by_cases h2 : c = '#'
        · rw [isBlankText, if_neg (by simp), if_neg h1, if_pos h2] at h
          rw [skipBlank, if_neg (by simp), if_neg h1, if_pos h2]
          exact ih true h
        · rw [isBlankText, if_neg (by simp), if_neg h1, if_neg h2] at h
          exact absurd h (by simp)

/-- Claim C7: for every input consisting solely of whitespace characters
and '#' line comments (including a final comment ending at end-of-input
with no newline), the tokenizer yields exactly one EndOfInput token on the
first call (with nothing left to read afterwards), and the driver loop
accepts zero top-level constructs from such input, whatever the fuel. -/
theorem c7_blank_input (input : String) (idStr : String) (numVal : Rat)
    (table : List (Char × Int)) (h : isBlankText false input.toList = true) :
    gettok ⟨input.toList, some ' '⟩ idStr numVal =
      (tok_eof, idStr, numVal, ⟨[], none⟩) ∧
    (∀ fuel, MainLoop (fuel + 1) (primeState input table) =
      .done 0 (primeState input table)) := by
  have hskip : skipBlankFrom (some ' ') input.toList = (none, []) := by
    rw [skipBlankFrom]
    rw [if_pos (by decide)]
    exact isBlankText_skipBlank input.toList false h
  have hget : ∀ i n, gettok ⟨input.toList, some ' '⟩ i n = (tok_eof, i, n, ⟨[], none⟩) := by
    intro i n
    rw [gettok]
    simp only [hskip]
  refine ⟨hget idStr numVal, ?_⟩
  have hcur : (primeState input table).curTok = tok_eof := by
    simp only [primeState, initState, getNextToken]
    rw [hget]
  intro fuel
  rw [MainLoop, if_pos hcur]

/-- Witness for C7 on the concrete blank input "  # note" (whitespace plus
a comment that ends at end-of-input). -/
theorem c7_blank_input_witness :
    gettok ⟨"  # note".toList, some ' '⟩ "" 0 = (tok_eof, "", 0, ⟨[], none⟩) ∧
    (∀ fuel, MainLoop (fuel + 1) (primeState "  # note" installedTable) =
      .done 0 (primeState "  # note" installedTable)) :=
  c7_blank_input "  # note" "" 0 installedTable (by decide)

/-! ## Claim C9: parenthesization is invisible in the tree -/

/-- Claim C9 counterexample: the claim "for every expression e that
`ParseExpression` accepts, parsing ( e ) yields an identical AST" fails at
the concrete input e = "1 2": `ParseExpression` accepts "1 2" (it parses
the prefix "1" and leaves the rest pending), but on "(1 2)" the pending
"2" is not the required `')'`, so the parse fails and yields no tree at
all. -/
theorem c9_counterexample :
    resOf (ParseExpression 50 (primeState "1 2" installedTable)) =
      some (some (.NumberExprAST 1)) ∧
    resOf (ParseExpression 50 (primeState "(1 2)" installedTable)) =
      some none :=
  ⟨rfl, rfl⟩

theorem gettok_cons_space (c : Char) (l : List Char) (i : String) (n : Rat) :
    gettok ⟨c :: l, some ' '⟩ i n = gettok ⟨l, some c⟩ i n := by
  have hskip : skipBlankFrom (some ' ') (c :: l) = skipBlankFrom (some c) l := by
    rw [skipBlankFrom, if_pos (by decide), skipBlank, skipBlankFrom]
    simp
  rw [gettok, gettok]
  simp only [hskip]

theorem gettok_empty (i : String) (n : Rat) :
    gettok ⟨[], none⟩ i n = (tok_eof, i, n, ⟨[], none⟩) := by
  rw [gettok]
  rfl

/-- Claim C9, amended: if `ParseExpression` on e followed by `')'` yields
the tree t with the `')'` as the pending current token and end-of-input
behind it, then `ParseExpression` on "(" ++ e ++ ")" yields exactly the
same tree t (with the input fully consumed): `ParseParenExpr` returns the
inner expression node unchanged and introduces no wrapper node, so
parenthesization is invisible in the resulting tree. -/
theorem c9_amended_paren_transparent (e : String) (table : List (Char × Int))
    (fuel : Nat) (t : ExprAST) (s' : PState)
    (h : ParseExpression fuel (primeState (e ++ ")") table) = .done (some t) s')
    (hcur : s'.curTok = ((')').toNat : Int))
    (hlex : s'.lex = ⟨[], none⟩) :
    ParseExpression (fuel + 3) (primeState ("(" ++ e ++ ")") table) =
      .done (some t) { s' with curTok := tok_eof } := by
  have hdata : (e ++ ")").toList = e.data ++ [')'] := by
    rw [String.toList, String.data_append]
  have hlist : ("(" ++ e ++ ")").toList = '(' :: (e ++ ")").toList := by
    rw [String.toList, String.data_append, String.data_append, hdata]
    show ("(".data ++ e.data) ++ [')'] = _
    simp
  obtain ⟨d, rest, hdl⟩ : ∃ d rest, (e ++ ")").toList = d :: rest := by
    rw [hdata]
    cases e.data with
    | nil => exact ⟨')', [], rfl⟩
    | cons a as => exact ⟨a, as ++ [')'], by simp⟩
  have hprime : primeState ("(" ++ e ++ ")") table =
      PState.mk ⟨rest, some d⟩ (('(').toNat : Int) "" 0 table [] 0 := by
    simp only [primeState, initState, getNextToken, hlist, hdl]
    rw [gettok_cons_space]
    rw [gettok]
    rfl
  have hinner : getNextToken
      (PState.mk ⟨rest, some d⟩ (('(').toNat : Int) "" 0 table [] 0) =
      primeState (e ++ ")") table := by
    simp only [primeState, initState, getNextToken, hdl]
    rw [gettok_cons_space]
  rw [hprime]
  show (match ParsePrimary (fuel + 2)
      (PState.mk ⟨rest, some d⟩ (('(').toNat : Int) "" 0 table [] 0) with
    | PRes.fuelOut => (PRes.fuelOut : PRes ExprAST)
    | PRes.done none s => PRes.done none s
    | PRes.done (some lhs) s => ParseBinOpRHS (fuel + 2) 0 lhs s) = _
  have hnext : getNextToken s' = { s' with curTok := tok_eof } := by
    simp only [getNextToken, hlex, gettok_empty]
  have hpp : ParsePrimary (fuel + 2)
      (PState.mk ⟨rest, some d⟩ (('(').toNat : Int) "" 0 table [] 0) =
      .done (some t) { s' with curTok := tok_eof } := by
    show ParseParenExpr (fuel + 1)
      (PState.mk ⟨rest, some d⟩ (('(').toNat : Int) "" 0 table [] 0) = _
    rw [ParseParenExpr]
    rw [hinner, h]
    simp [hcur, hnext]
  rw [hpp]
  show ParseBinOpRHS (fuel + 2) 0 t { s' with curTok := tok_eof } = _
  have hgtp : GetTokPrecendence { s' with curTok := tok_eof } =
      (-1, { s' with curTok := tok_eof }) := by
    rw [GetTokPrecendence]
    rfl
  rw [ParseBinOpRHS, hgtp]
  norm_num

/-- Witness for the amended C9 at e = "1+2*3": the run on "1+2*3)" ends on
the pending `')'` with tree 1+(2*3), and the run on "(1+2*3)" returns the
identical tree.  (The final table holds the zero entry that the `')'`
precedence query inserted, as established at claim C3.) -/
theorem c9_amended_paren_transparent_witness :
    ParseExpression 23 (primeState "(1+2*3)" installedTable) =
      .done (some (.BinaryExprAST (('+').toNat : Int) (.NumberExprAST 1)
        (.BinaryExprAST (('*').toNat : Int) (.NumberExprAST 2)
          (.NumberExprAST 3))))
        (PState.mk ⟨[], none⟩ tok_eof "" 3 (installedTable ++ [(')', 0)]) [] 0) := by
  have := c9_amended_paren_transparent "1+2*3" installedTable 20
    (.BinaryExprAST (('+').toNat : Int) (.NumberExprAST 1)
      (.BinaryExprAST (('*').toNat : Int) (.NumberExprAST 2)
        (.NumberExprAST 3)))
    (PState.mk ⟨[], none⟩ ((')').toNat : Int) "" 3 (installedTable ++ [(')', 0)]) [] 0)
    (by rfl) (by rfl) (by rfl)
  exact this

/-! ## Claim C8: termination of the precedence-climbing loop -/

theorem scanIdent_le (acc : String) (input : List Char) :
    lexM (scanIdent acc input).2.1 (scanIdent acc input).2.2 ≤ input.length := by
  induction input generalizing acc with
  | nil => simp [scanIdent, lexM]
  | cons c rest ih =>
    by_cases h : isalnumC c
    · simp only [scanIdent, h, if_pos]
      exact le_trans (ih (acc.push c)) (by simp)
    · simp [scanIdent, h, lexM]

theorem scanNum_le (acc : String) (c : Char) (input : List Char) :
    lexM (scanNum acc c input).2.1 (scanNum acc c input).2.2 ≤ input.length := by
  induction input generalizing acc c with
  | nil => simp [scanNum, lexM]
  | cons d rest ih =>
    by_cases h : isdigitdotC d
    · simp only [scanNum, h, if_pos]
      exact le_trans (ih (acc.push c) d) (by simp)
    · simp [scanNum, h, lexM]

theorem getchar_eq (input : List Char) :
    lexM (getchar input).1 (getchar input).2 = input.length := by
  cases input <;> simp [getchar, lexM]

theorem gettok_le (st : LexState) (i : String) (n : Rat) :
    lexM (gettok st i n).2.2.2.lastChar (gettok st i n).2.2.2.input ≤
      lexM st.lastChar st.input ∧
    ((gettok st i n).1 ≠ tok_eof →
      lexM (gettok st i n).2.2.2.lastChar (gettok st i n).2.2.2.input <
        lexM st.lastChar st.input) := by
  have hsb := skipBlankFrom_le st.lastChar st.input
  rw [gettok]
  split
  next input1 heq =>
    rw [heq] at hsb
    simp only [lexM] at hsb ⊢
    constructor
    · omega
    · intro h; exact absurd rfl h
  next c input1 heq =>
    rw [heq] at hsb
    have h1 : input1.length + 1 ≤ lexM st.lastChar st.input := by
      simpa [lexM] using hsb
    by_cases ha : isalphaC c
    · have hs := scanIdent_le (String.singleton c) input1
      simp only [ha, if_pos]
      rcases hscan : scanIdent (String.singleton c) input1 with ⟨idStr1, lc2, input2⟩
      rw [hscan] at hs
      split <;>
        [skip; split] <;>
        refine ⟨?_, fun hne => ?_⟩ <;>
        · simp at hs h1 ⊢
          omega
    · by_cases hn : isdigitdotC c
      · have hs := scanNum_le "" c input1
        simp only [ha, hn, if_neg, if_pos, Bool.false_eq_true, not_false_eq_true]
        rcases hscan : scanNum "" c input1 with ⟨numStr, lc2, input2⟩
        rw [hscan] at hs
        refine ⟨?_, fun hne => ?_⟩ <;>
          · simp at hs h1 ⊢
            omega
      · have hg := getchar_eq input1
        simp only [ha, hn, Bool.false_eq_true, not_false_eq_true, if_neg]
        rcases hget : getchar input1 with ⟨lc2, input2⟩
        rw [hget] at hg
        refine ⟨?_, fun hne => ?_⟩ <;>
          · simp at hg h1 ⊢
            omega

/-- Unconsumed-characters measure of a parser state. -/
def pM (s : PState) : Nat := lexM s.lex.lastChar s.lex.input

theorem getNextToken_pM (s : PState) :
    pM (getNextToken s) ≤ pM s ∧
    ((getNextToken s).curTok ≠ tok_eof → pM (getNextToken s) < pM s) := by
  have h := gettok_le s.lex s.identifierStr s.numVal
  rcases hg : gettok s.lex s.identifierStr s.numVal with ⟨t, i2, n2, lex2⟩
  rw [hg] at h
  simp only [getNextToken, hg, pM]
  exact h

theorem GetTokPrecendence_state (s : PState) :
    (GetTokPrecendence s).2.lex = s.lex ∧ (GetTokPrecendence s).2.curTok = s.curTok := by
  unfold GetTokPrecendence
  split
  · exact ⟨rfl, rfl⟩
  · split
    · exact ⟨rfl, rfl⟩
    · split
      · split <;> exact ⟨rfl, rfl⟩

theorem GetTokPrecendence_pM (s : PState) : pM (GetTokPrecendence s).2 = pM s := by
  have := (GetTokPrecendence_state s).1
  simp [pM, this]

theorem ParsePrimary_eof (k : Nat) (s : PState) (h : s.curTok = tok_eof) :
    ParsePrimary (k + 1) s =
      .done none (pushLog "Unknown token when expecting an expression." s) := by
  simp only [ParsePrimary, h]
  rfl

theorem ParseBinOpRHS_eof (k : Nat) (prec : Int) (lhs : ExprAST) (s : PState)
    (hcur : s.curTok = tok_eof) (hprec : 0 ≤ prec) :
    ParseBinOpRHS (k + 1) prec lhs s = .done (some lhs) s := by
  have hgtp : GetTokPrecendence s = (-1, s) := by
    rw [GetTokPrecendence, hcur]
    rfl
  simp only [ParseBinOpRHS, hgtp]
  rw [if_pos (by omega)]

theorem ParseExpression_eof (k : Nat) (s : PState) (h : s.curTok = tok_eof) :
    ParseExpression (k + 2) s =
      .done none (pushLog "Unknown token when expecting an expression." s) := by
  simp only [ParseExpression]
  rw [ParsePrimary_eof _ _ h]

theorem getNextToken_dich (s : PState) :
    pM (getNextToken s) < pM s ∨ (getNextToken s).curTok = tok_eof := by
  by_cases h : (getNextToken s).curTok = tok_eof
  · exact Or.inr h
  · exact Or.inl ((getNextToken_pM s).2 h)

theorem parse_pM_mono (fuel : Nat) :
    (∀ s r s', ParseIdentifierExpr fuel s = .done r s' →
      pM s' ≤ pM s ∧ ∀ x, r = some x → pM s' < pM s ∨ s'.curTok = tok_eof) ∧
    (∀ idName args s r s', ParseArgsLoop fuel idName args s = .done r s' →
      pM s' ≤ pM s ∧ ∀ x, r = some x → pM s' < pM s ∨ s'.curTok = tok_eof) ∧
    (∀ s r s', ParseParenExpr fuel s = .done r s' →
      pM s' ≤ pM s ∧ ∀ x, r = some x → pM s' < pM s ∨ s'.curTok = tok_eof) ∧
    (∀ s r s', ParsePrimary fuel s = .done r s' →
      pM s' ≤ pM s ∧ ∀ x, r = some x → pM s' < pM s ∨ s'.curTok = tok_eof) ∧
    (∀ s r s', ParseExpression fuel s = .done r s' →
      pM s' ≤ pM s ∧ ∀ x, r = some x → pM s' < pM s ∨ s'.curTok = tok_eof) ∧
    (∀ prec lhs s r s', ParseBinOpRHS fuel prec lhs s = .done r s' →
      pM s' ≤ pM s) := by
  induction fuel with
  | zero =>
    refine ⟨?_, ?_, ?_, ?_, ?_, ?_⟩ <;> intros <;>
      simp_all [ParseIdentifierExpr, ParseArgsLoop, ParseParenExpr,
        ParsePrimary, ParseExpression, ParseBinOpRHS]
  | succ n ih =>
    obtain ⟨ihI, ihA, ihPar, ihP, ihE, ihB⟩ := ih
    refine ⟨?_, ?_, ?_, ?_, ?_, ?_⟩
    · -- ParseIdentifierExpr
      intro s r s' h
      simp only [ParseIdentifierExpr] at h
      split at h
      · cases h
        exact ⟨(getNextToken_pM s).1, fun x _ => getNextToken_dich s⟩
      · split at h
        · cases h
          simp only [mkCallNode, PRes.done.injEq] at *
          refine ⟨?_, fun x _ => ?_⟩
          · show pM (getNextToken (getNextToken (getNextToken s))) ≤ pM s
            calc pM (getNextToken (getNextToken (getNextToken s)))
                ≤ pM (getNextToken (getNextToken s)) := (getNextToken_pM _).1
              _ ≤ pM (getNextToken s) := (getNextToken_pM _).1
              _ ≤ pM s := (getNextToken_pM _).1
          · rcases getNextToken_dich (getNextToken (getNextToken s)) with hlt | heof
            · exact Or.inl (lt_of_lt_of_le hlt
                (le_trans (getNextToken_pM _).1 (getNextToken_pM _).1))
            · exact Or.inr heof
        · have hmono := ihA _ _ _ _ _ h
          refine ⟨?_, fun x hx => ?_⟩
          · exact le_trans hmono.1
              (le_trans (getNextToken_pM _).1 (getNextToken_pM _).1)
          · rcases hmono.2 x hx with hlt | heof
            · exact Or.inl (lt_of_lt_of_le hlt
                (le_trans (getNextToken_pM _).1 (getNextToken_pM _).1))
            · exact Or.inr heof
    · -- ParseArgsLoop
      intro idName args s r s' h
      simp only [ParseArgsLoop] at h
      split at h
      · exact absurd h (by simp)
      next s1 heq =>
        cases h
        exact ⟨(ihE _ _ _ heq).1, fun x hx => by simp at hx⟩
      next arg s1 heq =>
        have h1 := ihE _ _ _ heq
        split at h
        · cases h
          simp only [mkCallNode, PRes.done.injEq] at *
          refine ⟨?_, fun x _ => ?_⟩
          · show pM (getNextToken s1) ≤ pM s
            exact le_trans (getNextToken_pM _).1 h1.1
          · rcases getNextToken_dich s1 with hlt | heof
            · exact Or.inl (lt_of_lt_of_le hlt h1.1)
            · exact Or.inr heof
        · split at h
          · simp only [LogErrorE, PRes.done.injEq] at h
            obtain ⟨hr, hs⟩ := h
            subst hr hs
            exact ⟨h1.1, fun x hx => by simp at hx⟩
          · have h2 := ihA _ _ _ _ _ h
            refine ⟨?_, fun x hx => ?_⟩
            · exact le_trans h2.1 (le_trans (getNextToken_pM _).1 h1.1)
            · rcases h2.2 x hx with hlt | heof
              · exact Or.inl (lt_of_lt_of_le hlt
                  (le_trans (getNextToken_pM _).1 h1.1))
              · exact Or.inr heof
    · -- ParseParenExpr
      intro s r s' h
      simp only [ParseParenExpr] at h
      split at h
      · exact absurd h (by simp)
      next s1 heq =>
        cases h
        have h1 := ihE _ _ _ heq
        exact ⟨le_trans h1.1 (getNextToken_pM _).1, fun x hx => by simp at hx⟩
      next e s1 heq =>
        have h1 := ihE _ _ _ heq
        have h1' : pM s1 ≤ pM s := le_trans h1.1 (getNextToken_pM _).1
        split at h
        · simp only [LogErrorE, PRes.done.injEq] at h
          obtain ⟨hr, hs⟩ := h
          subst hr hs
          exact ⟨h1', fun x hx => by simp at hx⟩
        · cases h
          refine ⟨le_trans (getNextToken_pM _).1 h1', fun x _ => ?_⟩
          rcases getNextToken_dich s1 with hlt | heof
          · exact Or.inl (lt_of_lt_of_le hlt h1')
          · exact Or.inr heof
    · -- ParsePrimary
      intro s r s' h
      simp only [ParsePrimary] at h
      split at h
      · exact ihI _ _ _ h
      · split at h
        · simp only [ParseNumberExpr] at h
          cases h
          exact ⟨(getNextToken_pM s).1, fun x _ => getNextToken_dich s⟩
        · split at h
          · exact ihPar _ _ _ h
          · simp only [LogErrorE, PRes.done.injEq] at h
            obtain ⟨hr, hs⟩ := h
            subst hr hs
            exact ⟨le_refl _, fun x hx => by simp at hx⟩
    · -- ParseExpression
      intro s r s' h
      simp only [ParseExpression] at h
      split at h
      · exact absurd h (by simp)
      next s1 heq =>
        cases h
        exact ⟨(ihP _ _ _ heq).1, fun x hx => by simp at hx⟩
      next lhs s1 heq =>
        have h1 := ihP _ _ _ heq
        have hB := ihB _ _ _ _ _ h
        refine ⟨le_trans hB h1.1, fun x hx => ?_⟩
        rcases h1.2 lhs rfl with hlt | heof
        · exact Or.inl (lt_of_le_of_lt hB hlt)
        · cases n with
          | zero => exact absurd h (by simp [ParseBinOpRHS])
          | succ m =>
            rw [ParseBinOpRHS_eof m 0 lhs s1 heof (by omega)] at h
            cases h
            exact Or.inr heof
    · -- ParseBinOpRHS
      intro prec lhs s r s' h
      simp only [ParseBinOpRHS] at h
      have h0 : pM (GetTokPrecendence s).2 = pM s := GetTokPrecendence_pM s
      split at h
      · cases h
        exact le_of_eq h0
      · split at h
        · exact absurd h (by simp)
        next s2 heq2 =>
          cases h
          calc pM s' ≤ pM (getNextToken (GetTokPrecendence s).2) := (ihP _ _ _ heq2).1
            _ ≤ pM (GetTokPrecendence s).2 := (getNextToken_pM _).1
            _ = pM s := h0
        next rhs s2 heq2 =>
          have h2 : pM s2 ≤ pM s := by
            calc pM s2 ≤ pM (getNextToken (GetTokPrecendence s).2) := (ihP _ _ _ heq2).1
              _ ≤ pM (GetTokPrecendence s).2 := (getNextToken_pM _).1
              _ = pM s := h0
          have h3 : pM (GetTokPrecendence s2).2 = pM s2 := GetTokPrecendence_pM s2
          split at h
          · split at h
            · exact absurd h (by simp)
            next s4 heq4 =>
              cases h
              calc pM s' ≤ pM (GetTokPrecendence s2).2 := ihB _ _ _ _ _ heq4
                _ = pM s2 := h3
                _ ≤ pM s := h2
            next rhs2 s4 heq4 =>
              calc pM s' ≤ pM s4 := ihB _ _ _ _ _ h
                _ ≤ pM (GetTokPrecendence s2).2 := ihB _ _ _ _ _ heq4
                _ = pM s2 := h3
                _ ≤ pM s := h2
          · calc pM s' ≤ pM (GetTokPrecendence s2).2 := ihB _ _ _ _ _ h
              _ = pM s2 := h3
              _ ≤ pM s := h2

theorem parse_fuel_sufficient : ∀ N : Nat,
    (∀ s fuel, pM s ≤ N → 5 * N + 3 ≤ fuel → ParseIdentifierExpr fuel s ≠ .fuelOut) ∧
    (∀ s fuel, pM s ≤ N → 5 * N + 3 ≤ fuel → ParseParenExpr fuel s ≠ .fuelOut) ∧
    (∀ s fuel, pM s ≤ N → 5 * N + 5 ≤ fuel → ParsePrimary fuel s ≠ .fuelOut) ∧
    (∀ s fuel, pM s ≤ N → 5 * N + 6 ≤ fuel → ParseExpression fuel s ≠ .fuelOut) ∧
    (∀ idName args s fuel, pM s ≤ N → 5 * N + 7 ≤ fuel →
      ParseArgsLoop fuel idName args s ≠ .fuelOut) ∧
    (∀ prec lhs s fuel, pM s ≤ N → 0 ≤ prec → 5 * N + 2 ≤ fuel →
      ParseBinOpRHS fuel prec lhs s ≠ .fuelOut) := by
  intro N
  induction N using Nat.strong_induction_on with
  | _ N IH =>
  have hI : ∀ s fuel, pM s ≤ N → 5 * N + 3 ≤ fuel →
      ParseIdentifierExpr fuel s ≠ .fuelOut := by
    intro s fuel hpm hf
    obtain ⟨f, rfl⟩ : ∃ f, fuel = f + 1 := ⟨fuel - 1, by omega⟩
    simp only [ParseIdentifierExpr]
    split
    · simp
    next hcond =>
      split
      · simp [mkCallNode]
      · -- the consumed identifier token was not eof: cur is '(' here
        have hne : (getNextToken s).curTok ≠ tok_eof := by
          simp only [Decidable.not_not] at hcond
          rw [hcond]
          decide
        have hlt : pM (getNextToken s) < pM s := (getNextToken_pM s).2 hne
        have hM : pM (getNextToken s) < N + 1 := by omega
        have hA := (IH (pM (getNextToken s)) (by omega)).2.2.2.2.1
        exact hA _ _ _ _ (getNextToken_pM _).1 (by omega)
  have hPar : ∀ s fuel, pM s ≤ N → 5 * N + 3 ≤ fuel →
      ParseParenExpr fuel s ≠ .fuelOut := by
    intro s fuel hpm hf
    obtain ⟨f, rfl⟩ : ∃ f, fuel = f + 1 := ⟨fuel - 1, by omega⟩
    simp only [ParseParenExpr]
    have hE' : ParseExpression f (getNextToken s) ≠ .fuelOut := by
      rcases getNextToken_dich s with hlt | heof
      · exact (IH (pM (getNextToken s)) (by omega)).2.2.2.1 _ _ (le_refl _) (by omega)
      · obtain ⟨k, rfl⟩ : ∃ k, f = k + 2 := ⟨f - 2, by omega⟩
        rw [ParseExpression_eof _ _ heof]
        simp
    cases hres : ParseExpression f (getNextToken s) with
    | fuelOut => exact absurd hres hE'
    | done r s1 =>
      cases r with
      | none => simp [hres]
      | some e =>
        simp only [hres]
        split <;> simp [LogErrorE]
  have hP : ∀ s fuel, pM s ≤ N → 5 * N + 5 ≤ fuel →
      ParsePrimary fuel s ≠ .fuelOut := by
    intro s fuel hpm hf
    obtain ⟨f, rfl⟩ : ∃ f, fuel = f + 1 := ⟨fuel - 1, by omega⟩
    simp only [ParsePrimary]
    split
    · exact hI _ _ hpm (by omega)
    · split
      · simp [ParseNumberExpr]
      · split
        · exact hPar _ _ hpm (by omega)
        · simp [LogErrorE]
  have hE : ∀ s fuel, pM s ≤ N → 5 * N + 6 ≤ fuel →
      ParseExpression fuel s ≠ .fuelOut := by
    intro s fuel hpm hf
    obtain ⟨f, rfl⟩ : ∃ f, fuel = f + 1 := ⟨fuel - 1, by omega⟩
    simp only [ParseExpression]
    cases hres : ParsePrimary f s with
    | fuelOut => exact absurd hres (hP _ _ hpm (by omega))
    | done r s1 =>
      cases r with
      | none => simp [hres]
      | some lhs =>
        simp only [hres]
        have hmono := (parse_pM_mono f).2.2.2.1 _ _ _ hres
        have hB' : ParseBinOpRHS f 0 lhs s1 ≠ .fuelOut := by
          rcases hmono.2 lhs rfl with hlt | heof
          · exact (IH (pM s1) (by omega)).2.2.2.2.2 0 lhs _ _ (le_refl _)
              (by omega) (by omega)
          · obtain ⟨k, rfl⟩ : ∃ k, f = k + 1 := ⟨f - 1, by omega⟩
            rw [ParseBinOpRHS_eof _ _ _ _ heof (by omega)]
            simp
        cases hres2 : ParseBinOpRHS f 0 lhs s1 with
        | fuelOut => exact absurd hres2 hB'
        | done r2 s2 => simp [hres2]
  have hA : ∀ idName args s fuel, pM s ≤ N → 5 * N + 7 ≤ fuel →
      ParseArgsLoop fuel idName args s ≠ .fuelOut := by
    intro idName args s fuel hpm hf
    obtain ⟨f, rfl⟩ : ∃ f, fuel = f + 1 := ⟨fuel - 1, by omega⟩
    simp only [ParseArgsLoop]
    cases hres : ParseExpression f s with
    | fuelOut => exact absurd hres (hE _ _ hpm (by omega))
    | done r s1 =>
      cases r with
      | none => simp [hres]
      | some arg =>
        simp only [hres]
        have hmono := (parse_pM_mono f).2.2.2.2.1 _ _ _ hres
        split
        · simp [mkCallNode]
        · split
          · simp [LogErrorE]
          next hnp hcm =>
            -- here the pending token is ',', hence not eof: the expression
            -- parse consumed at least one character
            have heof : s1.curTok ≠ tok_eof := by
              simp only [Decidable.not_not] at hcm
              rw [hcm]
              decide
            have hlt : pM s1 < pM s := by
              rcases hmono.2 arg rfl with hlt | he
              · exact hlt
              · exact absurd he heof
            exact (IH (pM s1) (by omega)).2.2.2.2.1 _ _ _ _
              (getNextToken_pM _).1 (by omega)
  have hB : ∀ prec lhs s fuel, pM s ≤ N → 0 ≤ prec → 5 * N + 2 ≤ fuel →
      ParseBinOpRHS fuel prec lhs s ≠ .fuelOut := by
    intro prec lhs s fuel hpm hprec hf
    obtain ⟨f, rfl⟩ : ∃ f, fuel = f + 1 := ⟨fuel - 1, by omega⟩
    simp only [ParseBinOpRHS]
    split
    · simp
    next hge =>
      -- tokPrec ≥ prec ≥ 0 here
      set s0 := (GetTokPrecendence s).2 with hs0
      have h0 : pM s0 = pM s := GetTokPrecendence_pM s
      have hP' : ParsePrimary f (getNextToken s0) ≠ .fuelOut := by
        rcases getNextToken_dich s0 with hlt | heof
        · exact (IH (pM (getNextToken s0)) (by omega)).2.2.1 _ _ (le_refl _) (by omega)
        · obtain ⟨k, rfl⟩ : ∃ k, f = k + 1 := ⟨f - 1, by omega⟩
          rw [ParsePrimary_eof _ _ heof]
          simp
      cases hres : ParsePrimary f (getNextToken s0) with
      | fuelOut => exact absurd hres hP'
      | done r s2 =>
        cases r with
        | none => simp [hres]
        | some rhs =>
          simp only [hres]
          -- on primary success the consumed operator plus the primary
          -- strictly shrank the input
          have hlt2 : pM s2 < pM s := by
            have hm2 := ((parse_pM_mono f).2.2.2.1 _ _ _ hres).1
            rcases getNextToken_dich s0 with hlt | heof
            · omega
            · -- primary cannot succeed on eof
              exfalso
              obtain ⟨k, rfl⟩ : ∃ k, f = k + 1 := ⟨f - 1, by omega⟩
              rw [ParsePrimary_eof _ _ heof] at hres
              simp at hres
          have hmono2 : pM s2 ≤ pM s := le_of_lt hlt2
          set s2q := (GetTokPrecendence s2).2 with hs2q
          have h2q : pM s2q = pM s2 := GetTokPrecendence_pM s2
          split
          · -- recursive right-capture, then the loop continues
            cases hres2 : ParseBinOpRHS f ((GetTokPrecendence s).1 + 1) rhs s2q with
            | fuelOut =>
              exact absurd hres2 ((IH (pM s2) (by omega)).2.2.2.2.2 _ _ _ _
                (by omega) (by omega) (by omega))
            | done r2 s4 =>
              cases r2 with
              | none => simp [hres2]
              | some rhs2 =>
                simp only [hres2]
                have hm4 : pM s4 ≤ pM s2q := (parse_pM_mono f).2.2.2.2.2 _ _ _ _ _ hres2
                exact (IH (pM s2) (by omega)).2.2.2.2.2 _ _ _ _
                  (by omega) hprec (by omega)
          · -- merge and continue the loop
            exact (IH (pM s2) (by omega)).2.2.2.2.2 _ _ _ _
              (by omega) hprec (by omega)
  exact ⟨hI, hPar, hP, hE, hA, hB⟩
/-- Claim C8: for every finite token stream (any parser state) and every
precedence floor used by the parser (the entry floor 0 and the positive
recursive floors — any non-negative floor), `ParseBinOpRHS` terminates:
fuel `5 * pM s + 2`, linear in the number of unconsumed input characters,
is never exhausted.  Moreover the below-floor test is the exit that fires
at EndOfInput: a token such as `tok_eof` has precedence -1, below every
non-negative floor, so `ParseBinOpRHS` immediately returns its left-hand
side unchanged. -/
theorem c8_binoprhs_terminates :
    (∀ (s : PState) (exprPrec : Int) (lhs : ExprAST) (fuel : Nat),
       0 ≤ exprPrec → 5 * pM s + 2 ≤ fuel →
       ParseBinOpRHS fuel exprPrec lhs s ≠ .fuelOut) ∧
    (∀ (k : Nat) (prec : Int) (lhs : ExprAST) (s : PState),
       s.curTok = tok_eof → 0 ≤ prec →
       ParseBinOpRHS (k + 1) prec lhs s = .done (some lhs) s) := by
  constructor
  · intro s exprPrec lhs fuel hprec hfuel
    exact (parse_fuel_sufficient (pM s)).2.2.2.2.2 exprPrec lhs s fuel
      (le_refl _) hprec hfuel
  · exact fun k prec lhs s h hp => ParseBinOpRHS_eof k prec lhs s h hp

/-- Witness for C8: at the concrete state primed on "+2" (cursor on `'+'`),
fuel 12 ≥ 5·pM+2 suffices, and at end-of-input the loop exits at once
returning the left-hand side. -/
theorem c8_binoprhs_terminates_witness :
    ParseBinOpRHS 12 0 (.NumberExprAST 1) (primeState "+2" installedTable) ≠
      .fuelOut ∧
    ParseBinOpRHS 1 0 (.NumberExprAST 1)
        (PState.mk ⟨[], none⟩ tok_eof "" 0 installedTable [] 0) =
      .done (some (.NumberExprAST 1))
        (PState.mk ⟨[], none⟩ tok_eof "" 0 installedTable [] 0) := by
  constructor
  · exact c8_binoprhs_terminates.1 _ 0 _ 12 (by decide) (by decide)
  · exact c8_binoprhs_terminates.2 0 0 _ _ (by rfl) (by decide)
